import Mathlib

/-!
Verification development for the mc-frontend log ingestion, parsing, caching
and aggregation pipeline (src/deaths.rs and src/logs.rs).

The Rust code is shallowly embedded: strings are manipulated as `List Char`
(mirroring Rust byte/char scans over `&str`), `chrono::NaiveDateTime` is
abstracted as a `Timestamp` carrying the day index (`date`, what `.date()`
buckets by) and the calendar year (`.year()`); the library datetime parser
`NaiveDateTime::parse_from_str` is a parameter `parseTs` of the embedded
parser, since it is third-party library code.  Fallible or panicking code
returns `Option`.
-/

namespace MCFrontend

/- ## Character-list utilities modelling Rust `&str` operations -/

/-- Does `hay` start with `needle`?  Models Rust `str::starts_with`. -/
def beginsWithSeq : List Char → List Char → Bool
  | _, [] => true
  | [], _ :: _ => false
  | a :: as, b :: bs => a == b && beginsWithSeq as bs

/-- Does `hay` contain `needle` as a contiguous subsequence?
Models Rust `str::contains`. -/
def containsSeq (hay needle : List Char) : Bool :=
  match hay with
  | [] => beginsWithSeq [] needle
  | _ :: t => beginsWithSeq hay needle || containsSeq t needle

/-- Does `hay` end with `needle`?  Models Rust `str::ends_with`. -/
def endsWithSeq (hay needle : List Char) : Bool :=
  beginsWithSeq hay.reverse needle.reverse

/-- Split at the first occurrence of `sep`, returning the part before and the
part after.  `none` when `sep` does not occur.  Models Rust
`str::splitn(2, sep)` yielding two pieces (the `parts.len() == 2` branch). -/
def splitSepAt (sep : List Char) : List Char → Option (List Char × List Char)
  | [] => none
  | c :: cs =>
    if beginsWithSeq (c :: cs) sep then some ([], (c :: cs).drop sep.length)
    else
      match splitSepAt sep cs with
      | some (a, b) => some (c :: a, b)
      | none => none

/-- Strip leading and trailing whitespace.  Models Rust `str::trim`. -/
def trimChars (l : List Char) : List Char :=
  ((l.dropWhile Char.isWhitespace).reverse.dropWhile Char.isWhitespace).reverse

/-- Worker for `splitWs`: `cur` is the current (reversed) in-progress token. -/
def splitWsAux : List Char → List Char → List (List Char)
  | [], cur => if cur.isEmpty then [] else [cur.reverse]
  | c :: cs, cur =>
    if c.isWhitespace then
      if cur.isEmpty then splitWsAux cs [] else cur.reverse :: splitWsAux cs []
    else splitWsAux cs (c :: cur)

/-- Split on runs of whitespace, producing no empty tokens.  Models Rust
`str::split_whitespace`. -/
def splitWs (l : List Char) : List (List Char) := splitWsAux l []

/-- Split on every newline character, keeping empty pieces. -/
def splitNl : List Char → List (List Char)
  | [] => [[]]
  | c :: cs =>
    if c == '\n' then [] :: splitNl cs
    else
      match splitNl cs with
      | h :: t => (c :: h) :: t
      | [] => [[c]]

/-- Drop a single trailing carriage return. -/
def stripCr (l : List Char) : List Char :=
  match l.getLast? with
  | some c => if c == '\r' then l.dropLast else l
  | none => l

/-- The lines of a string.  Models Rust `str::lines`: pieces are separated by
a newline, a carriage return before a separating newline is stripped, and a
final empty piece (from a trailing newline) is not a line. -/
def rustLines (s : String) : List String :=
  let ps := splitNl s.data
  let init := (ps.dropLast.map stripCr).map (fun l => String.mk l)
  match ps.getLast? with
  | some [] => init
  | some l => init ++ [String.mk l]
  | none => init

/- ## Data model (src/deaths.rs) -/

/-- Abstraction of `chrono::NaiveDateTime` at the granularity the aggregator
uses: `date` is the day index (`.date()` bucketing, successive days differ
by 1, mirroring `checked_add_days(Days::new(1))`) and `year` is `.year()`. -/
structure Timestamp where
  date : Nat
  year : Int
deriving DecidableEq

/-- `DeathRecord` from src/deaths.rs: timestamp, player (account) and the
message remainder taken as the cause. -/
structure DeathRecord where
  timestamp : Timestamp
  player : String
  cause : String
deriving DecidableEq

/-- `IGNORED_TIMESTAMPS` from src/deaths.rs: the fixed denylist of
known-corrupt timestamp strings. -/
def IGNORED_TIMESTAMPS : List String :=
  ["06Jun2025 15:42:05.682", "08Jun2025 18:40:17.329", "05Jan2026 01:49:16.370"]

/-- `IGNORED_MESSAGES` from src/deaths.rs: substrings marking non-death
noise lines. -/
def IGNORED_MESSAGES : List String :=
  ["has the following entity data", "joined the game", "left the game",
   "lost connection", "has made the advancement", "has reached the goal",
   "has completed the challenge", "[Server]", "<", "moved too quickly!",
   "moved wrongly!", "logged in with entity id", "UUID of player",
   "displaying particle", "issued server command", "teleported to"]

/-- `is_ignored_message` from src/deaths.rs. -/
def is_ignored_message (content : List Char) : Bool :=
  IGNORED_MESSAGES.any (fun m => containsSeq content m.data)

/-- The literal log separator between metadata and content.  The source
splits on the three-character string of a closing bracket, a colon and a
space. -/
def logSeparator : List Char := [']', ':', ' ']

/-- Timestamp-string extraction from the metadata part of a line: the first
two whitespace-separated tokens joined with one space, with bracket
characters removed; the literal fallback otherwise (src/deaths.rs lines
78-83). -/
def extractTimestampChars (meta : List Char) : List Char :=
  match splitWs meta with
  | t0 :: t1 :: _ => (t0 ++ [' '] ++ t1).filter (fun c => !(c == '[' || c == ']'))
  | _ => ("unknown").data

/-- The whitelist scan of src/deaths.rs lines 97-108: the first whitelist
name followed by a space that the content starts with wins, provided the
content is not an ignored message; the remainder after the name, trimmed,
becomes the cause. -/
def firstWhitelistMatch (t : Timestamp) (content : List Char) :
    List String → List DeathRecord
  | [] => []
  | name :: rest =>
    if beginsWithSeq content (name.data ++ [' ']) && !(is_ignored_message content) then
      [⟨t, name, String.mk (trimChars (content.drop name.data.length))⟩]
    else firstWhitelistMatch t content rest

/-- Processing of a single line by `parse_log` (src/deaths.rs lines 70-110).
`parseTs` stands for the third-party `NaiveDateTime::parse_from_str` with the
fixed pattern. -/
def parseLine (parseTs : String → Option Timestamp) (wl : List String)
    (line : String) : List DeathRecord :=
  match splitSepAt logSeparator line.data with
  | none => []
  | some (meta, content) =>
    let tsStr := String.mk (extractTimestampChars meta)
    if IGNORED_TIMESTAMPS.contains tsStr then []
    else
      match parseTs tsStr with
      | none => []
      | some t => firstWhitelistMatch t content wl

/-- `parse_log` from src/deaths.rs: per line, push the line's records onto
the accumulator, in line order. -/
def parse_log (parseTs : String → Option Timestamp) (wl : List String)
    (log : String) : List DeathRecord :=
  (rustLines log).foldl (fun acc line => acc ++ parseLine parseTs wl line) []

/-- The timestamp string a line would be denylist-checked against. -/
def lineTimestampString (line : String) : String :=
  match splitSepAt logSeparator line.data with
  | some (meta, _) => String.mk (extractTimestampChars meta)
  | none => "unknown"

/- ## Parser lemmas -/

theorem firstWhitelistMatch_ignored (t : Timestamp) (content : List Char)
    (wl : List String) (h : is_ignored_message content = true) :
    firstWhitelistMatch t content wl = [] := by
  induction wl with
  | nil => rfl
  | cons n rest ih => simp [firstWhitelistMatch, h, ih]

theorem firstWhitelistMatch_length (t : Timestamp) (content : List Char)
    (wl : List String) : (firstWhitelistMatch t content wl).length ≤ 1 := by
  induction wl with
  | nil => simp [firstWhitelistMatch]
  | cons n rest ih =>
    unfold firstWhitelistMatch
    split
    · simp
    · exact ih

theorem parseLine_length (pt : String → Option Timestamp) (wl : List String)
    (line : String) : (parseLine pt wl line).length ≤ 1 := by
  unfold parseLine
  cases splitSepAt logSeparator line.data with
  | none => simp
  | some mc =>
    cases mc with
    | mk meta content =>
      simp only
      split
      · simp
      · cases pt (String.mk (extractTimestampChars meta)) with
        | none => simp
        | some t => exact firstWhitelistMatch_length t content wl

theorem foldl_append_eq_flatMap {α β : Type} (f : α → List β) (ls : List α)
    (acc : List β) :
    ls.foldl (fun a x => a ++ f x) acc = acc ++ ls.flatMap f := by
  induction ls generalizing acc with
  | nil => simp
  | cons x xs ih => simp [List.foldl_cons, ih]

theorem parse_log_eq_flatMap (pt : String → Option Timestamp)
    (wl : List String) (log : String) :
    parse_log pt wl log = (rustLines log).flatMap (parseLine pt wl) := by
  unfold parse_log
  rw [foldl_append_eq_flatMap]
  simp

theorem firstWhitelistMatch_first (t : Timestamp) (content : List Char)
    (wl : List String) (r : DeathRecord)
    (h : firstWhitelistMatch t content wl = [r]) :
    wl.find? (fun n => beginsWithSeq content (n.data ++ [' '])) = some r.player := by
  by_cases hig : is_ignored_message content = true
  · rw [firstWhitelistMatch_ignored t content wl hig] at h
    exact absurd h (by simp)
  · have hig' : is_ignored_message content = false := by
      cases hh : is_ignored_message content
      · rfl
      · exact absurd hh hig
    induction wl with
    | nil => exact absurd h (by simp [firstWhitelistMatch])
    | cons n rest ih =>
      by_cases hb : beginsWithSeq content (n.data ++ [' ']) = true
      · rw [firstWhitelistMatch] at h
        rw [hb, hig'] at h
        simp at h
        simp [List.find?_cons, hb, ← h]
      · have hb' : beginsWithSeq content (n.data ++ [' ']) = false := by
          cases hh : beginsWithSeq content (n.data ++ [' '])
          · rfl
          · exact absurd hh hb
        rw [firstWhitelistMatch] at h
        rw [hb'] at h
        simp at h
        simp only [List.find?_cons, hb']
        exact ih h

/-- C4: a line whose extracted timestamp string is on the fixed denylist
contributes no event, whatever the account or message; consequently every
record of the parser's output originates in a line whose timestamp string is
not denylisted. -/
theorem ignored_timestamp_excluded (pt : String → Option Timestamp)
    (wl : List String) :
    (∀ line, IGNORED_TIMESTAMPS.contains (lineTimestampString line) = true →
      parseLine pt wl line = []) ∧
    (∀ log r, r ∈ parse_log pt wl log →
      ∃ line, line ∈ rustLines log ∧ r ∈ parseLine pt wl line ∧
        IGNORED_TIMESTAMPS.contains (lineTimestampString line) = false) := by
  have key : ∀ line, IGNORED_TIMESTAMPS.contains (lineTimestampString line) = true →
      parseLine pt wl line = [] := by
    intro line hden
    unfold parseLine
    unfold lineTimestampString at hden
    cases hsep : splitSepAt logSeparator line.data with
    | none => rfl
    | some mc =>
      cases mc with
      | mk meta content =>
        rw [hsep] at hden
        simp only
        rw [hden]
        simp
  refine ⟨key, ?_⟩
  intro log r hr
  rw [parse_log_eq_flatMap] at hr
  rcases List.mem_flatMap.mp hr with ⟨line, hline, hrl⟩
  refine ⟨line, hline, hrl, ?_⟩
  cases hden : IGNORED_TIMESTAMPS.contains (lineTimestampString line) with
  | false => rfl
  | true =>
    rw [key line hden] at hrl
    exact absurd hrl (by simp)

/-- C4 witness: a concrete line carrying the first denylisted timestamp is
dropped even though its content matches the whitelisted account. -/
theorem ignored_timestamp_excluded_witness :
    IGNORED_TIMESTAMPS.contains
        (lineTimestampString
          ("[06Jun2025] [15:42:05.682] [Server thread/INFO]: Alice fell from a high place")) =
      true ∧
    parseLine (fun _ => some ⟨0, 0⟩) ["Alice"]
        ("[06Jun2025] [15:42:05.682] [Server thread/INFO]: Alice fell from a high place") =
      [] := by
  refine ⟨by decide, ?_⟩
  exact (ignored_timestamp_excluded (fun _ => some ⟨0, 0⟩) ["Alice"]).1
    ("[06Jun2025] [15:42:05.682] [Server thread/INFO]: Alice fell from a high place")
    (by decide)

/-- C5: a line whose content contains one of the fixed noise substrings
contributes no event, even when the content starts with a whitelisted
account name followed by a space (the theorem quantifies over every
whitelist). -/
theorem ignored_message_excluded (pt : String → Option Timestamp)
    (wl : List String) (line : String) (meta content : List Char)
    (hsep : splitSepAt logSeparator line.data = some (meta, content))
    (hig : is_ignored_message content = true) :
    parseLine pt wl line = [] := by
  unfold parseLine
  rw [hsep]
  simp only
  split
  · rfl
  · cases pt (String.mk (extractTimestampChars meta)) with
    | none => rfl
    | some t => exact firstWhitelistMatch_ignored t content wl hig

/-- C5 witness: a join-notification line starting with the whitelisted name
produces no event. -/
theorem ignored_message_excluded_witness :
    beginsWithSeq ("Alice joined the game").data (("Alice").data ++ [' ']) = true ∧
    parseLine (fun _ => some ⟨0, 0⟩) ["Alice"]
        ("[01Jan2024] [10:00:00.000] [Server thread/INFO]: Alice joined the game") =
      [] := by
  refine ⟨by decide, ?_⟩
  exact ignored_message_excluded (fun _ => some ⟨0, 0⟩) ["Alice"]
    ("[01Jan2024] [10:00:00.000] [Server thread/INFO]: Alice joined the game")
    ("[01Jan2024] [10:00:00.000] [Server thread/INFO").data
    ("Alice joined the game").data (by decide) (by decide)

/-- C10: the parser emits at most one event per input line, the output is
the in-order concatenation of the per-line results (so events keep the
relative order of their source lines), and an emitted event is attributed to
the first whitelist name whose name-plus-space is a prefix of the content. -/
theorem parser_per_line_order (pt : String → Option Timestamp)
    (wl : List String) (log : String) :
    parse_log pt wl log = (rustLines log).flatMap (parseLine pt wl) ∧
    (∀ line, (parseLine pt wl line).length ≤ 1) ∧
    (∀ line r, parseLine pt wl line = [r] →
      ∃ meta content, splitSepAt logSeparator line.data = some (meta, content) ∧
        wl.find? (fun n => beginsWithSeq content (n.data ++ [' '])) = some r.player) := by
  refine ⟨parse_log_eq_flatMap pt wl log, fun line => parseLine_length pt wl line, ?_⟩
  intro line r h
  unfold parseLine at h
  cases hsep : splitSepAt logSeparator line.data with
  | none => rw [hsep] at h; exact absurd h (by simp)
  | some mc =>
    cases mc with
    | mk meta content =>
      rw [hsep] at h
      simp only at h
      refine ⟨meta, content, rfl, ?_⟩
      by_cases hden :
          IGNORED_TIMESTAMPS.contains (String.mk (extractTimestampChars meta)) = true
      · rw [hden] at h
        simp at h
      · have hden' : IGNORED_TIMESTAMPS.contains
            (String.mk (extractTimestampChars meta)) = false := by
          cases hh : IGNORED_TIMESTAMPS.contains (String.mk (extractTimestampChars meta))
          · rfl
          · exact absurd hh hden
        rw [hden'] at h
        simp at h
        cases hts : pt (String.mk (extractTimestampChars meta)) with
        | none => rw [hts] at h; exact absurd h (by simp)
        | some t =>
          rw [hts] at h
          exact firstWhitelistMatch_first t content wl r h

/-- C10 witness: a two-line log yields one event per line in line order,
each attributed to the first matching whitelist name. -/
theorem parser_per_line_order_witness :
    List.find? (fun n => beginsWithSeq (("Alice was slain by Zombie").data)
        (n.data ++ [' '])) ["Alice", "Bob"] = some "Alice" := by
  have h := (parser_per_line_order (fun _ => some ⟨0, 0⟩) ["Alice", "Bob"] "").2.2
    ("[01Jan2024] [10:00:00.000] [Server thread/INFO]: Alice was slain by Zombie")
    ⟨⟨0, 0⟩, "Alice", "was slain by Zombie"⟩ (by decide)
  rcases h with ⟨meta, content, hsep, hfind⟩
  have hc : content = ("Alice was slain by Zombie").data := by
    have : splitSepAt logSeparator
        ("[01Jan2024] [10:00:00.000] [Server thread/INFO]: Alice was slain by Zombie").data =
        some (("[01Jan2024] [10:00:00.000] [Server thread/INFO").data,
          ("Alice was slain by Zombie").data) := by decide
    rw [this] at hsep
    exact (Prod.mk.injEq _ _ _ _ ▸ (Option.some.injEq _ _ ▸ hsep)).2.symm ▸ rfl
  rw [← hc]
  exact hfind

/- ## Archive scanner (src/deaths.rs lines 129-136, src/logs.rs lines 85-94) -/

/-- Does a file name match the glob pattern for compressed logs? -/
def isGzName (f : String) : Bool := endsWithSeq f.data (".gz").data

/-- Does a file name carry the debug marker? -/
def hasDebugMarker (f : String) : Bool := containsSeq f.data ("debug").data

/-- Lexicographic comparison of character lists by code point, modelling the
byte-wise `Ord` on Rust `str` (identical on the ASCII file names involved). -/
def lexLe : List Char → List Char → Bool
  | [], _ => true
  | _ :: _, [] => false
  | a :: as, b :: bs =>
    if a.toNat < b.toNat then true
    else if b.toNat < a.toNat then false
    else lexLe as bs

/-- Lexicographic comparison of strings. -/
def strLe (a b : String) : Bool := lexLe a.data b.data

theorem lexLe_total (x y : List Char) : lexLe x y = true ∨ lexLe y x = true := by
  induction x generalizing y with
  | nil => left; rfl
  | cons a as ih =>
    cases y with
    | nil => right; rfl
    | cons b bs =>
      by_cases hab : a.toNat < b.toNat
      · left; simp [lexLe, hab]
      · by_cases hba : b.toNat < a.toNat
        · right; simp [lexLe, hba]
        · rcases ih bs with h | h
          · left; simp [lexLe, hab, hba, h]
          · right; simp [lexLe, hab, hba, h]

theorem lexLe_trans (x y z : List Char) (hxy : lexLe x y = true)
    (hyz : lexLe y z = true) : lexLe x z = true := by
  induction x generalizing y z with
  | nil => rfl
  | cons a as ih =>
    cases y with
    | nil => simp [lexLe] at hxy
    | cons b bs =>
      cases z with
      | nil => simp [lexLe] at hyz
      | cons c cs =>
        simp only [lexLe] at hxy hyz ⊢
        by_cases hab : a.toNat < b.toNat
        · by_cases hbc : b.toNat < c.toNat
          · rw [if_pos (show a.toNat < c.toNat by omega)]
          · rw [if_neg hbc] at hyz
            by_cases hcb : c.toNat < b.toNat
            · rw [if_pos hcb] at hyz
              exact Bool.noConfusion hyz
            · rw [if_pos (show a.toNat < c.toNat by omega)]
        · rw [if_neg hab] at hxy
          by_cases hba : b.toNat < a.toNat
          · rw [if_pos hba] at hxy
            exact Bool.noConfusion hxy
          · rw [if_neg hba] at hxy
            by_cases hbc : b.toNat < c.toNat
            · rw [if_pos (show a.toNat < c.toNat by omega)]
            · rw [if_neg hbc] at hyz
              by_cases hcb : c.toNat < b.toNat
              · rw [if_pos hcb] at hyz
                exact Bool.noConfusion hyz
              · rw [if_neg hcb] at hyz
                rw [if_neg (show ¬a.toNat < c.toNat by omega),
                  if_neg (show ¬c.toNat < a.toNat by omega)]
                exact ih bs cs hxy hyz

theorem strLe_total (x y : String) : strLe x y = true ∨ strLe y x = true :=
  lexLe_total x.data y.data

theorem strLe_trans (x y z : String) (hxy : strLe x y = true)
    (hyz : strLe y z = true) : strLe x z = true :=
  lexLe_trans x.data y.data z.data hxy hyz

/-- One step of the lexicographic insertion sort used to model `Vec::sort`. -/
def insertSorted (a : String) : List String → List String
  | [] => [a]
  | b :: bs => if strLe a b then a :: b :: bs else b :: insertSorted a bs

/-- Lexicographic sort of a list of names, modelling `files.sort()`. -/
def sortStrings (l : List String) : List String := l.foldr insertSorted []

/-- The archive scan of `parse_logs` in src/deaths.rs: glob the compressed
logs of the directory listing, sort, and drop the debug-marked names.  No
most-recent archive is removed in this variant. -/
def scanArchivesDeaths (entries : List String) : List String :=
  (sortStrings (entries.filter isGzName)).filter (fun p => !(hasDebugMarker p))

/-- The archive scan of `parse_logs` in src/logs.rs: glob, sort, `pop()` the
lexicographically last matching file (it duplicates the live log), then drop
the debug-marked names.  The pop happens before the debug exclusion. -/
def scanArchivesLogs (entries : List String) : List String :=
  ((sortStrings (entries.filter isGzName)).dropLast).filter (fun p => !(hasDebugMarker p))

/-- Scanner as the claim words it (for refinement comparison only): matching
files, debug names excluded, sorted, and then the most recent (last) of the
remaining archives excluded. -/
def scanArchivesClaim (entries : List String) : List String :=
  ((sortStrings (entries.filter isGzName)).filter (fun p => !(hasDebugMarker p))).dropLast

theorem mem_insertSorted (a x : String) (l : List String) :
    x ∈ insertSorted a l ↔ x = a ∨ x ∈ l := by
  induction l with
  | nil => simp [insertSorted]
  | cons b bs ih =>
    unfold insertSorted
    split
    · simp
    · simp [ih]
      tauto

theorem mem_sortStrings (x : String) (l : List String) :
    x ∈ sortStrings l ↔ x ∈ l := by
  induction l with
  | nil => simp [sortStrings]
  | cons b bs ih =>
    show x ∈ insertSorted b (sortStrings bs) ↔ _
    rw [mem_insertSorted]
    simp [ih]

theorem pairwise_insertSorted (a : String) (l : List String)
    (h : List.Pairwise (fun x y : String => strLe x y = true) l) :
    List.Pairwise (fun x y : String => strLe x y = true) (insertSorted a l) := by
  induction l with
  | nil => simp [insertSorted]
  | cons b bs ih =>
    rw [List.pairwise_cons] at h
    unfold insertSorted
    split
    · rename_i hab
      rw [List.pairwise_cons]
      refine ⟨?_, List.pairwise_cons.mpr h⟩
      intro x hx
      cases hx with
      | head => exact hab
      | tail _ hx => exact strLe_trans a b x hab (h.1 x hx)
    · rename_i hab
      have hba : strLe b a = true := by
        rcases strLe_total a b with hh | hh
        · exact absurd hh hab
        · exact hh
      rw [List.pairwise_cons]
      refine ⟨?_, ih h.2⟩
      intro x hx
      rcases (mem_insertSorted a x bs).mp hx with rfl | hx
      · exact hba
      · exact h.1 x hx

theorem pairwise_sortStrings (l : List String) :
    List.Pairwise (fun x y : String => strLe x y = true) (sortStrings l) := by
  induction l with
  | nil => simp [sortStrings]
  | cons b bs ih => exact pairwise_insertSorted b (sortStrings bs) ih

/-- C2 counterexample: neither scanner matches the claim's description.  The
deaths-page scanner keeps the most recent archive (`["a.gz", "b.gz"]` both
survive), and the streaming scanner pops the lexicographically last matching
file before the debug exclusion, so when that file is a debug archive the
most recent real archive survives. -/
theorem scanner_claim_refuted :
    scanArchivesDeaths ["a.gz", "b.gz"] ≠ scanArchivesClaim ["a.gz", "b.gz"] ∧
    scanArchivesLogs ["a.gz", "zdebug.gz"] ≠ scanArchivesClaim ["a.gz", "zdebug.gz"] := by
  decide

/-- C2 amended: both scanners return lexicographically sorted, debug-free
matching names of the listing and return the empty list when nothing
matches; the deaths-page variant excludes no most-recent archive, while the
streaming variant removes the lexicographically last matching file before
the debug exclusion. -/
theorem scanner_amended (entries : List String) :
    List.Pairwise (fun x y : String => strLe x y = true) (scanArchivesDeaths entries) ∧
    List.Pairwise (fun x y : String => strLe x y = true) (scanArchivesLogs entries) ∧
    (∀ f ∈ scanArchivesDeaths entries,
      f ∈ entries ∧ isGzName f = true ∧ hasDebugMarker f = false) ∧
    (∀ f ∈ scanArchivesLogs entries,
      f ∈ entries ∧ isGzName f = true ∧ hasDebugMarker f = false) ∧
    (entries.filter isGzName = [] →
      scanArchivesDeaths entries = [] ∧ scanArchivesLogs entries = []) ∧
    (∀ init m, sortStrings (entries.filter isGzName) = init ++ [m] →
      scanArchivesDeaths entries = (init ++ [m]).filter (fun p => !(hasDebugMarker p)) ∧
      scanArchivesLogs entries = init.filter (fun p => !(hasDebugMarker p))) := by
  refine ⟨?_, ?_, ?_, ?_, ?_, ?_⟩
  · exact (pairwise_sortStrings (entries.filter isGzName)).filter _
  · exact List.Pairwise.filter _
      (List.Pairwise.sublist (List.dropLast_sublist _)
        (pairwise_sortStrings (entries.filter isGzName)))
  · intro f hf
    unfold scanArchivesDeaths at hf
    rw [List.mem_filter] at hf
    have hmem := (mem_sortStrings f _).mp hf.1
    rw [List.mem_filter] at hmem
    exact ⟨hmem.1, hmem.2, by simpa using hf.2⟩
  · intro f hf
    unfold scanArchivesLogs at hf
    rw [List.mem_filter] at hf
    have hmem := (mem_sortStrings f _).mp (List.Sublist.mem hf.1 (List.dropLast_sublist _))
    rw [List.mem_filter] at hmem
    exact ⟨hmem.1, hmem.2, by simpa using hf.2⟩
  · intro hempty
    constructor
    · unfold scanArchivesDeaths
      rw [hempty]
      rfl
    · unfold scanArchivesLogs
      rw [hempty]
      rfl
  · intro init m hsort
    constructor
    · unfold scanArchivesDeaths
      rw [hsort]
    · unfold scanArchivesLogs
      rw [hsort, List.dropLast_concat]

/-- C2 amended witness: on a concrete listing with a debug archive sorted
last, the streaming scanner keeps the most recent real archive and the
deaths-page scanner keeps everything non-debug. -/
theorem scanner_amended_witness :
    scanArchivesDeaths ["b.gz", "a.gz", "zdebug.gz", "notes.txt"] = ["a.gz", "b.gz"] ∧
    scanArchivesLogs ["b.gz", "a.gz", "zdebug.gz", "notes.txt"] = ["a.gz", "b.gz"] := by
  have h := (scanner_amended ["b.gz", "a.gz", "zdebug.gz", "notes.txt"]).2.2.2.2.2
    ["a.gz", "b.gz"] "zdebug.gz" (by decide)
  refine ⟨?_, ?_⟩
  · rw [h.1]
    decide
  · rw [h.2]
    decide

/- ## Parse cache (src/deaths.rs lines 137-168, src/logs.rs lines 97-132) -/

/-- Lookup in the cache map, modelled as an association list keyed by the
archive path. -/
def cacheLookup (cache : List (String × List DeathRecord)) (path : String) :
    Option (List DeathRecord) :=
  (cache.find? (fun e => e.1 == path)).map (fun e => e.2)

/-- Result of one pass of the per-archive task: the records handed on, the
cache afterwards, and how many times storage was touched (file opened /
decompressed). -/
structure CacheStep where
  records : List DeathRecord
  cache : List (String × List DeathRecord)
  storageReads : Nat
deriving DecidableEq

/-- The per-archive task of `parse_logs` in src/deaths.rs: on a cache hit
return the cached records; on a miss read and parse, then insert into the
cache unconditionally — a failed read caches the empty record list. -/
def getOrParseDeaths (pt : String → Option Timestamp) (wl : List String)
    (fs : String → Option String) (cache : List (String × List DeathRecord))
    (path : String) : CacheStep :=
  match cacheLookup cache path with
  | some r => ⟨r, cache, 0⟩
  | none =>
    match fs path with
    | some content =>
      let r := parse_log pt wl content
      ⟨r, cache ++ [(path, r)], 1⟩
    | none => ⟨[], cache ++ [(path, [])], 1⟩

/-- The per-archive task of `parse_logs` in src/logs.rs: on a cache hit
return the cached records; on a miss read and parse, inserting into the
cache only when the read succeeded. -/
def getOrParseLogs (pt : String → Option Timestamp) (wl : List String)
    (fs : String → Option String) (cache : List (String × List DeathRecord))
    (path : String) : CacheStep :=
  match cacheLookup cache path with
  | some r => ⟨r, cache, 0⟩
  | none =>
    match fs path with
    | some content =>
      let r := parse_log pt wl content
      ⟨r, cache ++ [(path, r)], 1⟩
    | none => ⟨[], cache, 1⟩

theorem cacheLookup_append_self (cache : List (String × List DeathRecord))
    (path : String) (r : List DeathRecord)
    (hmiss : cacheLookup cache path = none) :
    cacheLookup (cache ++ [(path, r)]) path = some r := by
  unfold cacheLookup at *
  rw [List.find?_append]
  have hnone : cache.find? (fun e => e.1 == path) = none := by
    cases hf : cache.find? (fun e => e.1 == path) with
    | none => rfl
    | some e => rw [hf] at hmiss; simp at hmiss
  rw [hnone]
  simp

/-- C3 counterexample: the deaths-page variant creates a cache entry even
when the read fails (the empty list is cached although no parse succeeded),
and on such a failing path the streaming variant touches storage again on
the second request, so decompression is not performed only once. -/
theorem cache_claim_refuted :
    cacheLookup
        (getOrParseDeaths (fun _ => some ⟨0, 0⟩) [] (fun _ => none) [] ("a.gz")).cache
        ("a.gz") = some [] ∧
    (getOrParseLogs (fun _ => some ⟨0, 0⟩) [] (fun _ => none)
        (getOrParseLogs (fun _ => some ⟨0, 0⟩) [] (fun _ => none) [] ("a.gz")).cache
        ("a.gz")).storageReads = 1 := by
  decide

/-- C3 amended: for a path missing from the cache whose read succeeds, both
variants cache the parse result and serve a second request identically with
no storage access; when the read fails, the streaming variant caches nothing
(a second request touches storage again) while the deaths-page variant
caches the empty list (a second request is cache-served), so only the
streaming variant creates entries exclusively on successful parses. -/
theorem cache_amended (pt : String → Option Timestamp) (wl : List String)
    (fs : String → Option String) (cache : List (String × List DeathRecord))
    (path : String) (hmiss : cacheLookup cache path = none) :
    (∀ content, fs path = some content →
      (getOrParseDeaths pt wl fs cache path).storageReads = 1 ∧
      (getOrParseDeaths pt wl fs cache path).records = parse_log pt wl content ∧
      getOrParseDeaths pt wl fs (getOrParseDeaths pt wl fs cache path).cache path =
        ⟨parse_log pt wl content, (getOrParseDeaths pt wl fs cache path).cache, 0⟩ ∧
      (getOrParseLogs pt wl fs cache path).storageReads = 1 ∧
      (getOrParseLogs pt wl fs cache path).records = parse_log pt wl content ∧
      cacheLookup (getOrParseLogs pt wl fs cache path).cache path =
        some (parse_log pt wl content) ∧
      getOrParseLogs pt wl fs (getOrParseLogs pt wl fs cache path).cache path =
        ⟨parse_log pt wl content, (getOrParseLogs pt wl fs cache path).cache, 0⟩) ∧
    (fs path = none →
      (getOrParseLogs pt wl fs cache path).cache = cache ∧
      (getOrParseLogs pt wl fs cache path).storageReads = 1 ∧
      (getOrParseDeaths pt wl fs cache path).cache = cache ++ [(path, [])] ∧
      (getOrParseDeaths pt wl fs
        (getOrParseDeaths pt wl fs cache path).cache path).storageReads = 0) := by
  constructor
  · intro content hc
    have hd : getOrParseDeaths pt wl fs cache path =
        ⟨parse_log pt wl content, cache ++ [(path, parse_log pt wl content)], 1⟩ := by
      unfold getOrParseDeaths
      rw [hmiss, hc]
    have hl : getOrParseLogs pt wl fs cache path =
        ⟨parse_log pt wl content, cache ++ [(path, parse_log pt wl content)], 1⟩ := by
      unfold getOrParseLogs
      rw [hmiss, hc]
    have hlook := cacheLookup_append_self cache path (parse_log pt wl content) hmiss
    refine ⟨by rw [hd], by rw [hd], ?_, by rw [hl], by rw [hl], ?_, ?_⟩
    · rw [hd]
      unfold getOrParseDeaths
      rw [hlook]
    · rw [hl]
      exact hlook
    · rw [hl]
      unfold getOrParseLogs
      rw [hlook]
  · intro hc
    have hd : getOrParseDeaths pt wl fs cache path = ⟨[], cache ++ [(path, [])], 1⟩ := by
      unfold getOrParseDeaths
      rw [hmiss, hc]
    have hl : getOrParseLogs pt wl fs cache path = ⟨[], cache, 1⟩ := by
      unfold getOrParseLogs
      rw [hmiss, hc]
    refine ⟨by rw [hl], by rw [hl], by rw [hd], ?_⟩
    rw [hd]
    unfold getOrParseDeaths
    rw [cacheLookup_append_self cache path [] hmiss]

/-- C3 amended witness: a concrete successful first parse is cached and the
second request is served with no storage access. -/
theorem cache_amended_witness :
    (getOrParseDeaths (fun _ => some ⟨0, 0⟩) [] (fun _ => some "") [] ("a.gz")).storageReads = 1 ∧
    (getOrParseDeaths (fun _ => some ⟨0, 0⟩) [] (fun _ => some "")
      (getOrParseDeaths (fun _ => some ⟨0, 0⟩) [] (fun _ => some "") [] ("a.gz")).cache
      ("a.gz")).records = [] := by
  have h := (cache_amended (fun _ => some ⟨0, 0⟩) [] (fun _ => some "") [] ("a.gz")
    (by decide)).1 "" rfl
  refine ⟨h.1, ?_⟩
  rw [h.2.2.1]
  decide

/- ## Aggregator data model (src/deaths.rs lines 185-262) -/

/-- `Chart` from src/deaths.rs.  The two parallel vectors `labels` and
`values` (always of equal length) are embedded as one list of pairs. -/
structure Chart where
  entries : List (String × Nat)
deriving DecidableEq

/-- The `labels` vector of a chart. -/
def Chart.labels (c : Chart) : List String := c.entries.map (fun e => e.1)

/-- The `values` vector of a chart. -/
def Chart.values (c : Chart) : List Nat := c.entries.map (fun e => e.2)

/-- Add `k` to the value at the first entry labelled `s` (`Chart::inc_by`
when the label is already present). -/
def bumpEntry (s : String) (k : Nat) : List (String × Nat) → List (String × Nat)
  | [] => []
  | e :: es => if e.1 == s then (e.1, e.2 + k) :: es else e :: bumpEntry s k es

/-- `Chart::inc_by`: add to the first entry with the given label, or push a
new label with that value. -/
def Chart.incBy (c : Chart) (s : String) (k : Nat) : Chart :=
  if c.entries.any (fun e => e.1 == s) then ⟨bumpEntry s k c.entries⟩
  else ⟨c.entries ++ [(s, k)]⟩

/-- `Chart::inc`. -/
def Chart.inc (c : Chart) (s : String) : Chart := c.incBy s 1

/-- `Chart::add_0`: push the label with value zero. -/
def Chart.add0 (c : Chart) (s : String) : Chart := ⟨c.entries ++ [(s, 0)]⟩

/-- `Player` from src/deaths.rs. -/
structure Player where
  name : String
  total_deaths : Nat
  exclusive_deaths : List String
  unique_deaths : Chart
  deaths_over_time : Chart
deriving DecidableEq

/-- `Year` from src/deaths.rs. -/
structure Year where
  number : Int
  enabled : Bool
deriving DecidableEq

/-- `DeathsTemplate` from src/deaths.rs (rendering-facing record). -/
structure DeathsTemplate where
  years : List Year
  no_year_enabled : Bool
  total_deaths : Nat
  players : List Player
  unique_deaths : Chart
  deaths_over_time : Chart
deriving DecidableEq

/-- `DeathsTemplate::default()`: every field empty, `no_year_enabled` is the
boolean default `false`. -/
def emptyTemplate : DeathsTemplate := ⟨[], false, 0, [], ⟨[]⟩, ⟨[]⟩⟩

/- ## Aggregator (src/deaths.rs lines 264-393) -/

/-- Sorted insertion of a year if missing, modelling the
`binary_search_by_key` + `insert` on the sorted `years` vector (lines
280-292); `en` is the enabled flag computed at insertion. -/
def insertYearSorted (ys : List Year) (n : Int) (en : Bool) : List Year :=
  match ys with
  | [] => [⟨n, en⟩]
  | z :: zs =>
    if z.number == n then z :: zs
    else if n < z.number then ⟨n, en⟩ :: z :: zs
    else z :: insertYearSorted zs n en

/-- The `inspect` pass collecting every distinct year of the (unfiltered)
event list, with `enabled` as `year.is_some_and(|y| y == d_year)`. -/
def buildYears (records : List DeathRecord) (sel : Option Int) : List Year :=
  records.foldl
    (fun acc d => insertYearSorted acc d.timestamp.year (sel == some d.timestamp.year)) []

/-- The year filter (line 294): `year.is_none_or(|y| d.timestamp.year() == y)`. -/
def yearFiltered (records : List DeathRecord) (sel : Option Int) : List DeathRecord :=
  records.filter (fun d =>
    match sel with
    | none => true
    | some y => d.timestamp.year == y)

/-- One step of the first pass (lines 297-306): find the first player with
the event's name and add one death, or push a fresh entry with one death. -/
def bumpTotal : List Player → String → List Player
  | [], n => [⟨n, 1, [], ⟨[]⟩, ⟨[]⟩⟩]
  | p :: ps, n =>
    if p.name == n then
      ⟨p.name, p.total_deaths + 1, p.exclusive_deaths, p.unique_deaths,
        p.deaths_over_time⟩ :: ps
    else p :: bumpTotal ps n

/-- The first pass over the filtered events in reverse order (line 297). -/
def buildPlayers (records : List DeathRecord) : List Player :=
  records.reverse.foldl (fun ps d => bumpTotal ps d.player) []

/-- One step of the `deaths_over_time_map` fold (lines 308-313): the entry
for the event's date gets its count raised and the player pushed. -/
def dotInsert (m : List (Nat × Nat × List String)) (d : Nat) (n : String) :
    List (Nat × Nat × List String) :=
  match m with
  | [] => [(d, 1, [n])]
  | e :: es =>
    if e.1 == d then (e.1, e.2.1 + 1, e.2.2 ++ [n]) :: es
    else e :: dotInsert es d n

/-- The `deaths_over_time_map` association (date, (count, dead players)). -/
def buildDotMap (records : List DeathRecord) : List (Nat × Nat × List String) :=
  records.foldl (fun m r => dotInsert m r.timestamp.date r.player) []

/-- Lookup by date in the map. -/
def dotLookup (m : List (Nat × Nat × List String)) (d : Nat) :
    Option (Nat × List String) :=
  (m.find? (fun e => e.1 == d)).map (fun e => e.2)

/-- Day label, modelling the `%d %b %Y` formatting of a date (one distinct
label per day). -/
def dateLabel (d : Nat) : String := toString d

/-- A single `p.deaths_over_time.inc(date_key)` applied to the players whose
name equals the dead player's (lines 322-327). -/
def incIfName (key : String) (dp : String) (p : Player) : Player :=
  if p.name == dp then
    ⟨p.name, p.total_deaths, p.exclusive_deaths, p.unique_deaths,
      p.deaths_over_time.inc key⟩
  else p

/-- `p.deaths_over_time.add_0(date_key)` for one player (lines 330-332). -/
def addZeroDay (key : String) (p : Player) : Player :=
  ⟨p.name, p.total_deaths, p.exclusive_deaths, p.unique_deaths,
    p.deaths_over_time.add0 key⟩

/-- One iteration of the `while current_date <= max_date` loop (lines
319-336), transforming the players and the global chart. -/
def dayStep (dot : List (Nat × Nat × List String)) (st : List Player × Chart)
    (d : Nat) : List Player × Chart :=
  match dotLookup dot d with
  | some (cnt, dps) =>
    (dps.foldl (fun ps dp => ps.map (incIfName (dateLabel d) dp)) st.1,
      st.2.incBy (dateLabel d) cnt)
  | none => (st.1.map (addZeroDay (dateLabel d)), st.2.add0 (dateLabel d))

/-- The dates visited by the day loop: from `lo` to `hi` inclusive, empty
when `lo > hi`. -/
def dateRange (lo hi : Nat) : List Nat :=
  (List.range (hi + 1 - lo)).map (fun k => lo + k)

/-- One step of the cause tally (the fold into the `HashMap<String, u64>` of
`death_pie_chart`, lines 345-350), keyed by exact cause string. -/
def tallyCause (m : List (String × Nat)) (c : String) : List (String × Nat) :=
  match m with
  | [] => [(c, 1)]
  | e :: es => if e.1 == c then (e.1, e.2 + 1) :: es else e :: tallyCause es c

/-- Insertion step of the descending sort by count (`sort_by_key(Reverse)`,
line 354). -/
def insertByCountDesc (e : String × Nat) :
    List (String × Nat) → List (String × Nat)
  | [] => [e]
  | f :: fs => if e.2 ≤ f.2 then f :: insertByCountDesc e fs else e :: f :: fs

/-- Descending sort by count.  The pre-sort order of the source is the
unspecified `HashMap` iteration order; first-occurrence order is used here as
its determinization (the spec flags the tie-break as unspecified). -/
def sortByCountDesc (l : List (String × Nat)) : List (String × Nat) :=
  l.foldr insertByCountDesc []

/-- `death_pie_chart` (lines 340-356). -/
def deathPieChart (causes : List String) : Chart :=
  ⟨sortByCountDesc (causes.foldl tallyCause [])⟩

/-- The per-player `unique_deaths` assignment (lines 359-366). -/
def setUnique (filtered : List DeathRecord) (p : Player) : Player :=
  ⟨p.name, p.total_deaths, p.exclusive_deaths,
    deathPieChart ((filtered.filter (fun d => d.player == p.name)).map (fun d => d.cause)),
    p.deaths_over_time⟩

/-- The per-player `exclusive_deaths` assignment (lines 367-380): the unique
labels such that every filtered event with that exact cause has this
player. -/
def setExclusive (filtered : List DeathRecord) (p : Player) : Player :=
  ⟨p.name, p.total_deaths,
    p.unique_deaths.labels.filter
      (fun pd => (filtered.filter (fun d => d.cause == pd)).all
        (fun d => d.player == p.name)),
    p.unique_deaths, p.deaths_over_time⟩

/-- The day loop (lines 315-338) over the date range, starting from the
first-pass players and an empty global chart. -/
def chartLoop (filtered : List DeathRecord) (lo hi : Nat) : List Player × Chart :=
  (dateRange lo hi).foldl (dayStep (buildDotMap filtered)) (buildPlayers filtered, ⟨[]⟩)

/-- The players handed to the template: first pass, day loop, unique pass,
exclusive pass. -/
def finalPlayers (filtered : List DeathRecord) (lo hi : Nat) : List Player :=
  (((chartLoop filtered lo hi).1).map (setUnique filtered)).map (setExclusive filtered)

/-- The `deaths` aggregation (lines 264-393).  `none` models the panic of
`deaths.first().unwrap()` / `deaths.last().unwrap()` when the year filter
leaves no event although the parse list was non-empty.  The day-loop range
runs from the first event's date to the last event's date. -/
def deathsAgg (records : List DeathRecord) (sel : Option Int) :
    Option DeathsTemplate :=
  if records.isEmpty then some emptyTemplate
  else
    match (yearFiltered records sel).head?, (yearFiltered records sel).getLast? with
    | some first, some lastRec =>
      some ⟨buildYears records sel,
        (buildYears records sel).all (fun y => !y.enabled),
        (yearFiltered records sel).length,
        finalPlayers (yearFiltered records sel)
          first.timestamp.date lastRec.timestamp.date,
        deathPieChart ((yearFiltered records sel).map (fun d => d.cause)),
        (chartLoop (yearFiltered records sel)
          first.timestamp.date lastRec.timestamp.date).2⟩
    | _, _ => none

/-- C9: the empty filtered event list yields the default (empty) template —
zero totals, no accounts, empty charts, no years — with no date-range
computation (the early return precedes the `first()`/`last()` unwraps). -/
theorem empty_input_empty_aggregate (sel : Option Int) :
    deathsAgg [] sel = some emptyTemplate := rfl

/-- Input for the per-account label-sequence failing case: two accounts
dying on two consecutive days. -/
def twoDayRecords : List DeathRecord :=
  [⟨⟨0, 2024⟩, "Alice", "slain"⟩, ⟨⟨1, 2024⟩, "Bob", "shot"⟩]

/-- C1 failing case: the global chart spans both days, but Alice's chart has
no zero entry for the day on which only Bob died (and Bob's chart no zero
entry for Alice's day), because the per-account `add_0` zero-fill happens
only on days with no global events.  The per-account label sequences
therefore differ from the global one, contrary to the claim (and to the
spec's own §8 scenario). -/
theorem per_account_labels_refuted :
    (deathsAgg twoDayRecords none).map (fun t => t.deaths_over_time.labels) =
      some [dateLabel 0, dateLabel 1] ∧
    (deathsAgg twoDayRecords none).map
        (fun t => t.players.map (fun p => (p.name, p.deaths_over_time.labels))) =
      some [("Bob", [dateLabel 1]), ("Alice", [dateLabel 0])] ∧
    [dateLabel 1] ≠ [dateLabel 0, dateLabel 1] ∧
    [dateLabel 0] ≠ [dateLabel 0, dateLabel 1] := by
  refine ⟨?_, ?_, by decide, by decide⟩
  · rfl
  · rfl

/- ## Day-loop characterization -/

/-- Sum of a chart's values. -/
def sumValues (c : Chart) : Nat := c.values.sum

theorem sumValues_bumpEntry (s : String) (k : Nat) (es : List (String × Nat))
    (h : es.any (fun e => e.1 == s) = true) :
    ((bumpEntry s k es).map (fun e => e.2)).sum = (es.map (fun e => e.2)).sum + k := by
  induction es with
  | nil => simp at h
  | cons e es ih =>
    by_cases he : (e.1 == s) = true
    · unfold bumpEntry
      rw [if_pos he]
      simp
      omega
    · have he' : (e.1 == s) = false := by
        cases hh : e.1 == s
        · rfl
        · exact absurd hh he
      unfold bumpEntry
      rw [if_neg (by simp [he'])]
      simp only [List.any_cons, he', Bool.false_or] at h
      simp [ih h]
      omega

theorem sumValues_incBy (c : Chart) (s : String) (k : Nat) :
    sumValues (c.incBy s k) = sumValues c + k := by
  unfold Chart.incBy sumValues Chart.values
  split
  · rename_i h
    exact sumValues_bumpEntry s k c.entries h
  · simp

theorem sumValues_inc (c : Chart) (s : String) :
    sumValues (c.inc s) = sumValues c + 1 :=
  sumValues_incBy c s 1

theorem sumValues_add0 (c : Chart) (s : String) :
    sumValues (c.add0 s) = sumValues c := by
  unfold Chart.add0 sumValues Chart.values
  simp

theorem incIfName_name (key dp : String) (p : Player) :
    (incIfName key dp p).name = p.name := by
  unfold incIfName
  split <;> rfl

theorem incIfName_total (key dp : String) (p : Player) :
    (incIfName key dp p).total_deaths = p.total_deaths := by
  unfold incIfName
  split <;> rfl

theorem sum_incIfName (key dp : String) (p : Player) :
    sumValues (incIfName key dp p).deaths_over_time =
      sumValues p.deaths_over_time + (if p.name == dp then 1 else 0) := by
  unfold incIfName
  split
  · rename_i h
    simp [h, sumValues_inc]
  · rename_i h
    simp [h]

/-- The per-player effect of the dead-players inner loop of one day. -/
def applyDps (key : String) (dps : List String) (p : Player) : Player :=
  dps.foldl (fun p dp => incIfName key dp p) p

theorem applyDps_name (key : String) (dps : List String) (p : Player) :
    (applyDps key dps p).name = p.name := by
  induction dps generalizing p with
  | nil => rfl
  | cons dp rest ih =>
    show (applyDps key rest (incIfName key dp p)).name = p.name
    rw [ih, incIfName_name]

theorem applyDps_total (key : String) (dps : List String) (p : Player) :
    (applyDps key dps p).total_deaths = p.total_deaths := by
  induction dps generalizing p with
  | nil => rfl
  | cons dp rest ih =>
    show (applyDps key rest (incIfName key dp p)).total_deaths = p.total_deaths
    rw [ih, incIfName_total]

theorem sum_applyDps (key : String) (dps : List String) (p : Player) :
    sumValues (applyDps key dps p).deaths_over_time =
      sumValues p.deaths_over_time + dps.countP (fun dp => p.name == dp) := by
  induction dps generalizing p with
  | nil => simp [applyDps]
  | cons dp rest ih =>
    show sumValues (applyDps key rest (incIfName key dp p)).deaths_over_time = _
    rw [ih, sum_incIfName]
    simp only [incIfName_name]
    rw [List.countP_cons]
    omega

theorem map_applyDps_nil (key : String) (ps : List Player) :
    ps.map (applyDps key []) = ps := by
  induction ps with
  | nil => rfl
  | cons q qs ih =>
    simp only [List.map_cons, ih]
    rfl

theorem foldl_map_comm (key : String) (dps : List String) (ps : List Player) :
    dps.foldl (fun ps dp => ps.map (incIfName key dp)) ps = ps.map (applyDps key dps) := by
  induction dps generalizing ps with
  | nil => exact (map_applyDps_nil key ps).symm
  | cons dp rest ih =>
    show rest.foldl _ (ps.map (incIfName key dp)) = _
    rw [ih, List.map_map]
    rfl

/-- The dead players recorded for date `d`. -/
def dpsOf (dot : List (Nat × Nat × List String)) (d : Nat) : List String :=
  match dotLookup dot d with
  | some x => x.2
  | none => []

/-- The per-player effect of one day-loop iteration. -/
def dayStepPlayer (dot : List (Nat × Nat × List String)) (d : Nat) (p : Player) :
    Player :=
  match dotLookup dot d with
  | some x => applyDps (dateLabel d) x.2 p
  | none => addZeroDay (dateLabel d) p

theorem dayStep_fst (dot : List (Nat × Nat × List String)) (st : List Player × Chart)
    (d : Nat) : (dayStep dot st d).1 = st.1.map (dayStepPlayer dot d) := by
  unfold dayStep dayStepPlayer
  cases h : dotLookup dot d with
  | none => rfl
  | some x =>
    cases x with
    | mk cnt dps =>
      simp only
      exact foldl_map_comm (dateLabel d) dps st.1

theorem dayStepPlayer_name (dot : List (Nat × Nat × List String)) (d : Nat)
    (p : Player) : (dayStepPlayer dot d p).name = p.name := by
  unfold dayStepPlayer
  cases dotLookup dot d with
  | none => rfl
  | some x => exact applyDps_name (dateLabel d) x.2 p

theorem dayStepPlayer_total (dot : List (Nat × Nat × List String)) (d : Nat)
    (p : Player) : (dayStepPlayer dot d p).total_deaths = p.total_deaths := by
  unfold dayStepPlayer
  cases dotLookup dot d with
  | none => rfl
  | some x => exact applyDps_total (dateLabel d) x.2 p

theorem sum_dayStepPlayer (dot : List (Nat × Nat × List String)) (d : Nat)
    (p : Player) :
    sumValues (dayStepPlayer dot d p).deaths_over_time =
      sumValues p.deaths_over_time + (dpsOf dot d).countP (fun dp => p.name == dp) := by
  unfold dayStepPlayer dpsOf
  cases dotLookup dot d with
  | none => simp [addZeroDay, sumValues_add0]
  | some x => exact sum_applyDps (dateLabel d) x.2 p

/-- The per-player effect of the whole day loop over a date list. -/
def playerAfter (dot : List (Nat × Nat × List String)) (range : List Nat)
    (p : Player) : Player :=
  range.foldl (fun p d => dayStepPlayer dot d p) p

theorem playerAfter_name (dot : List (Nat × Nat × List String)) (range : List Nat)
    (p : Player) : (playerAfter dot range p).name = p.name := by
  induction range generalizing p with
  | nil => rfl
  | cons d ds ih =>
    show (playerAfter dot ds (dayStepPlayer dot d p)).name = p.name
    rw [ih, dayStepPlayer_name]

theorem playerAfter_total (dot : List (Nat × Nat × List String)) (range : List Nat)
    (p : Player) : (playerAfter dot range p).total_deaths = p.total_deaths := by
  induction range generalizing p with
  | nil => rfl
  | cons d ds ih =>
    show (playerAfter dot ds (dayStepPlayer dot d p)).total_deaths = p.total_deaths
    rw [ih, dayStepPlayer_total]

theorem sum_playerAfter (dot : List (Nat × Nat × List String)) (range : List Nat)
    (p : Player) :
    sumValues (playerAfter dot range p).deaths_over_time =
      sumValues p.deaths_over_time +
        (range.map (fun d => (dpsOf dot d).countP (fun dp => p.name == dp))).sum := by
  induction range generalizing p with
  | nil => simp [playerAfter]
  | cons d ds ih =>
    show sumValues (playerAfter dot ds (dayStepPlayer dot d p)).deaths_over_time = _
    rw [ih]
    simp only [dayStepPlayer_name]
    rw [sum_dayStepPlayer]
    simp only [List.map_cons, List.sum_cons]
    omega

theorem map_playerAfter_nil (dot : List (Nat × Nat × List String))
    (ps : List Player) : ps.map (playerAfter dot []) = ps := by
  induction ps with
  | nil => rfl
  | cons q qs ih =>
    simp only [List.map_cons, ih]
    rfl

theorem foldl_dayStep_fst (dot : List (Nat × Nat × List String)) (range : List Nat)
    (ps : List Player) (g : Chart) :
    (range.foldl (dayStep dot) (ps, g)).1 = ps.map (playerAfter dot range) := by
  induction range generalizing ps g with
  | nil => exact (map_playerAfter_nil dot ps).symm
  | cons d ds ih =>
    show (ds.foldl (dayStep dot) (dayStep dot (ps, g) d)).1 = _
    have hpair : dayStep dot (ps, g) d =
        ((dayStep dot (ps, g) d).1, (dayStep dot (ps, g) d).2) := rfl
    rw [hpair, ih, dayStep_fst, List.map_map]
    rfl

/- ## Characterizing the deaths-over-time map -/

theorem dpsOf_dotInsert_same (m : List (Nat × Nat × List String)) (d : Nat)
    (n : String) : dpsOf (dotInsert m d n) d = dpsOf m d ++ [n] := by
  induction m with
  | nil => simp [dotInsert, dpsOf, dotLookup]
  | cons e es ih =>
    by_cases he : (e.1 == d) = true
    · unfold dotInsert
      rw [if_pos he]
      unfold dpsOf dotLookup
      simp [List.find?_cons, he]
    · have he' : (e.1 == d) = false := by
        cases hh : e.1 == d
        · rfl
        · exact absurd hh he
      unfold dotInsert
      rw [if_neg (by simp [he'])]
      unfold dpsOf dotLookup at ih ⊢
      simp only [List.find?_cons, he']
      exact ih

theorem dpsOf_dotInsert_ne (m : List (Nat × Nat × List String)) (d : Nat)
    (n : String) (d2 : Nat) (hne : d2 ≠ d) :
    dpsOf (dotInsert m d n) d2 = dpsOf m d2 := by
  induction m with
  | nil =>
    unfold dotInsert dpsOf dotLookup
    simp [List.find?_cons, show (d == d2) = false by simp [Ne.symm hne]]
  | cons e es ih =>
    by_cases he : (e.1 == d) = true
    · unfold dotInsert
      rw [if_pos he]
      unfold dpsOf dotLookup
      have hed2 : (e.1 == d2) = false := by
        have : e.1 = d := by simpa using he
        simp [this, Ne.symm hne]
      simp [List.find?_cons, hed2]
    · have he' : (e.1 == d) = false := by
        cases hh : e.1 == d
        · rfl
        · exact absurd hh he
      unfold dotInsert
      rw [if_neg (by simp [he'])]
      unfold dpsOf dotLookup at ih ⊢
      by_cases hed2 : (e.1 == d2) = true
      · simp [List.find?_cons, hed2]
      · have hed2' : (e.1 == d2) = false := by
          cases hh : e.1 == d2
          · rfl
          · exact absurd hh hed2
        simp only [List.find?_cons, hed2']
        exact ih

theorem dpsOf_foldl (l : List DeathRecord) (m : List (Nat × Nat × List String))
    (d : Nat) :
    dpsOf (l.foldl (fun m r => dotInsert m r.timestamp.date r.player) m) d =
      dpsOf m d ++ (l.filter (fun r => r.timestamp.date == d)).map (fun r => r.player) := by
  induction l generalizing m with
  | nil => simp
  | cons r rs ih =>
    show dpsOf (rs.foldl _ (dotInsert m r.timestamp.date r.player)) d = _
    rw [ih]
    by_cases hd : r.timestamp.date = d
    · rw [hd, dpsOf_dotInsert_same]
      simp [List.filter_cons, hd, List.append_assoc]
    · rw [dpsOf_dotInsert_ne m r.timestamp.date r.player d (Ne.symm hd)]
      simp [List.filter_cons, hd]

theorem dpsOf_buildDotMap (l : List DeathRecord) (d : Nat) :
    dpsOf (buildDotMap l) d =
      (l.filter (fun r => r.timestamp.date == d)).map (fun r => r.player) := by
  unfold buildDotMap
  rw [dpsOf_foldl]
  rfl

/- ## Counting over the date range -/

theorem countP_dps (l : List DeathRecord) (d : Nat) (name : String) :
    (dpsOf (buildDotMap l) d).countP (fun dp => name == dp) =
      l.countP (fun r => (r.timestamp.date == d) && (name == r.player)) := by
  rw [dpsOf_buildDotMap, List.countP_map, List.countP_filter]
  apply List.countP_congr
  intro r _
  simp [Function.comp]
  tauto

theorem sum_map_add_nat {α : Type} (l : List α) (f g : α → Nat) :
    (l.map (fun x => f x + g x)).sum = (l.map f).sum + (l.map g).sum := by
  induction l with
  | nil => rfl
  | cons x xs ih =>
    simp [ih]
    omega

theorem sum_indicator (range : List Nat) (d0 : Nat) (hnd : range.Nodup)
    (hm : d0 ∈ range) :
    (range.map (fun d => if d0 = d then 1 else 0)).sum = 1 := by
  induction range with
  | nil => simp at hm
  | cons d ds ih =>
    rw [List.nodup_cons] at hnd
    by_cases hd : d0 = d
    · have hzero : (ds.map (fun d2 => if d0 = d2 then 1 else 0)).sum = 0 := by
        apply List.sum_eq_zero
        intro x hx
        rcases List.mem_map.mp hx with ⟨d2, hd2, hval⟩
        have hne : d0 ≠ d2 := fun hcon => hnd.1 (hd ▸ hcon ▸ hd2)
        rw [if_neg hne] at hval
        omega
      rw [List.map_cons, List.sum_cons, if_pos hd, hzero]
    · have hm2 : d0 ∈ ds := by
        cases hm with
        | head => exact absurd rfl hd
        | tail _ h => exact h
      simp only [List.map_cons, if_neg hd, List.sum_cons]
      rw [ih hnd.2 hm2]

theorem countP_sum_over_range (f : List DeathRecord) (range : List Nat)
    (Q : DeathRecord → Bool) (hnd : range.Nodup)
    (hall : ∀ r ∈ f, r.timestamp.date ∈ range) :
    (range.map (fun d => f.countP (fun r => (r.timestamp.date == d) && Q r))).sum =
      f.countP Q := by
  induction f with
  | nil =>
    simp
  | cons r rs ih =>
    have hall2 : ∀ x ∈ rs, x.timestamp.date ∈ range := fun x hx => hall x (by simp [hx])
    have hsplit : ∀ d : Nat,
        List.countP (fun x => (x.timestamp.date == d) && Q x) (r :: rs) =
          List.countP (fun x => (x.timestamp.date == d) && Q x) rs +
            (if (r.timestamp.date == d) && Q r then 1 else 0) := by
      intro d
      rw [List.countP_cons]
    have hrw : (range.map (fun d =>
        List.countP (fun x => (x.timestamp.date == d) && Q x) (r :: rs))).sum =
        (range.map (fun d => List.countP (fun x => (x.timestamp.date == d) && Q x) rs)).sum +
          (range.map (fun d => if (r.timestamp.date == d) && Q r then 1 else 0)).sum := by
      rw [← sum_map_add_nat]
      congr 1
      apply List.map_congr_left
      intro d _
      rw [hsplit d]
    rw [hrw, ih hall2, List.countP_cons]
    congr 1
    by_cases hq : Q r = true
    · have : (range.map (fun d => if (r.timestamp.date == d) && Q r then 1 else 0)).sum =
          (range.map (fun d => if r.timestamp.date = d then 1 else 0)).sum := by
        congr 1
        apply List.map_congr_left
        intro d _
        simp [hq, beq_iff_eq]
      rw [this, sum_indicator range r.timestamp.date hnd (hall r (by simp))]
      simp [hq]
    · have hq' : Q r = false := by
        cases hh : Q r
        · rfl
        · exact absurd hh hq
      have : (range.map (fun d => if (r.timestamp.date == d) && Q r then 1 else 0)).sum =
          0 := by
        apply List.sum_eq_zero
        intro x hx
        rcases List.mem_map.mp hx with ⟨d2, _, hval⟩
        simp [hq'] at hval
        omega
      rw [this]
      simp [hq']

theorem mem_dateRange (lo hi d : Nat) : d ∈ dateRange lo hi ↔ lo ≤ d ∧ d ≤ hi := by
  unfold dateRange
  simp only [List.mem_map, List.mem_range]
  constructor
  · rintro ⟨k, hk, rfl⟩
    omega
  · rintro ⟨h1, h2⟩
    exact ⟨d - lo, by omega, by omega⟩

theorem nodup_dateRange (lo hi : Nat) : (dateRange lo hi).Nodup := by
  unfold dateRange
  exact List.Nodup.map (fun a b h => by omega) (List.nodup_range _)

/- ## Bounds from chronological order -/

theorem head_date_le (l : List DeathRecord)
    (h : l.Pairwise (fun a b => a.timestamp.date ≤ b.timestamp.date))
    (first : DeathRecord) (hh : l.head? = some first) :
    ∀ r ∈ l, first.timestamp.date ≤ r.timestamp.date := by
  cases l with
  | nil => simp at hh
  | cons a t =>
    have ha : first = a := by simpa using hh.symm
    subst ha
    intro r hr
    cases hr with
    | head => exact le_refl _
    | tail _ hr => exact (List.pairwise_cons.mp h).1 r hr

theorem date_le_getLast (l : List DeathRecord)
    (h : l.Pairwise (fun a b => a.timestamp.date ≤ b.timestamp.date))
    (lastRec : DeathRecord) (hl : l.getLast? = some lastRec) :
    ∀ r ∈ l, r.timestamp.date ≤ lastRec.timestamp.date := by
  induction l with
  | nil => simp at hl
  | cons a t ih =>
    cases t with
    | nil =>
      have : lastRec = a := by simpa using hl.symm
      subst this
      intro r hr
      simp at hr
      subst hr
      exact le_refl _
    | cons b ts =>
      rw [List.getLast?_cons_cons] at hl
      have hmem : lastRec ∈ b :: ts :=
        List.mem_of_mem_getLast? (by rw [hl]; exact Option.mem_some_iff.mpr rfl)
      intro r hr
      cases hr with
      | head => exact (List.pairwise_cons.mp h).1 lastRec hmem
      | tail _ hr => exact ih (List.pairwise_cons.mp h).2 hl r hr

/- ## Characterizing the first pass (per-account totals) -/

/-- The name column of a player list. -/
def namesOf (ps : List Player) : List String := ps.map (fun p => p.name)

theorem namesOf_append (a b : List Player) :
    namesOf (a ++ b) = namesOf a ++ namesOf b := by
  unfold namesOf
  simp

theorem bumpTotal_cases (ps : List Player) (n : String) :
    (ps.any (fun p => p.name == n) = false ∧
      bumpTotal ps n = ps ++ [⟨n, 1, [], ⟨[]⟩, ⟨[]⟩⟩]) ∨
    (∃ l1 p l2, ps = l1 ++ p :: l2 ∧ p.name = n ∧ (∀ q ∈ l1, q.name ≠ n) ∧
      bumpTotal ps n = l1 ++ ⟨p.name, p.total_deaths + 1, p.exclusive_deaths,
        p.unique_deaths, p.deaths_over_time⟩ :: l2) := by
  induction ps with
  | nil => left; exact ⟨rfl, rfl⟩
  | cons p ps ih =>
    by_cases hp : (p.name == n) = true
    · right
      refine ⟨[], p, ps, rfl, by simpa using hp, by simp, ?_⟩
      unfold bumpTotal
      rw [if_pos hp]
      rfl
    · have hp' : (p.name == n) = false := by
        cases hh : p.name == n
        · rfl
        · exact absurd hh hp
      rcases ih with ⟨hany, heq⟩ | ⟨l1, q, l2, hsplit, hqn, hl1, heq⟩
      · left
        constructor
        · simp [List.any_cons, hp', hany]
        · unfold bumpTotal
          rw [if_neg (by simp [hp'])]
          rw [heq]
          rfl
      · right
        refine ⟨p :: l1, q, l2, by simp [hsplit], hqn, ?_, ?_⟩
        · intro q2 hq2
          cases hq2 with
          | head => simpa using hp'
          | tail _ h => exact hl1 q2 h
        · unfold bumpTotal
          rw [if_neg (by simp [hp'])]
          rw [heq]
          rfl

theorem bumpTotal_invariant (ps : List Player) (seen : List DeathRecord)
    (r : DeathRecord)
    (h1 : ∀ p ∈ ps, p.total_deaths = seen.countP (fun d => d.player == p.name))
    (h2 : ∀ d ∈ seen, d.player ∈ namesOf ps)
    (h3 : (namesOf ps).Nodup)
    (h4 : ∀ p ∈ ps, p.deaths_over_time = (⟨[]⟩ : Chart)) :
    (∀ p ∈ bumpTotal ps r.player,
      p.total_deaths = (seen ++ [r]).countP (fun d => d.player == p.name)) ∧
    (∀ d ∈ seen ++ [r], d.player ∈ namesOf (bumpTotal ps r.player)) ∧
    (namesOf (bumpTotal ps r.player)).Nodup ∧
    (∀ p ∈ bumpTotal ps r.player, p.deaths_over_time = (⟨[]⟩ : Chart)) := by
  rcases bumpTotal_cases ps r.player with ⟨hany, heq⟩ | ⟨l1, q, l2, hsplit, hqn, hl1, heq⟩
  · have hnotin : r.player ∉ namesOf ps := by
      intro hcon
      rcases List.mem_map.mp hcon with ⟨p, hp, hname⟩
      have : ps.any (fun p => p.name == r.player) = true :=
        List.any_eq_true.mpr ⟨p, hp, by simp [hname]⟩
      rw [hany] at this
      exact Bool.noConfusion this
    have hseen0 : seen.countP (fun d => d.player == r.player) = 0 := by
      rw [List.countP_eq_zero]
      intro d hd hcon
      have : d.player = r.player := by simpa using hcon
      exact hnotin (this ▸ h2 d hd)
    have hnames : namesOf (bumpTotal ps r.player) = namesOf ps ++ [r.player] := by
      rw [heq, namesOf_append]
      rfl
    refine ⟨?_, ?_, ?_, ?_⟩
    · intro p hp
      rw [heq] at hp
      rcases List.mem_append.mp hp with hp | hp
      · have hne : (r.player == p.name) = false := by
          have : p.name ∈ namesOf ps := List.mem_map.mpr ⟨p, hp, rfl⟩
          have : r.player ≠ p.name := fun hcon => hnotin (hcon ▸ this)
          simpa using this
        rw [List.countP_append, List.countP_cons]
        simp [hne]
        exact h1 p hp
      · have hpv : p = ⟨r.player, 1, [], ⟨[]⟩, ⟨[]⟩⟩ := by simpa using hp
        subst hpv
        rw [List.countP_append, List.countP_cons]
        simp [hseen0]
    · intro d hd
      rw [hnames]
      rcases List.mem_append.mp hd with hd | hd
      · exact List.mem_append.mpr (Or.inl (h2 d hd))
      · have : d = r := by simpa using hd
        subst this
        exact List.mem_append.mpr (Or.inr (by simp))
    · rw [hnames, List.nodup_append]
      exact ⟨h3, List.nodup_singleton _, by simpa [List.disjoint_singleton] using hnotin⟩
    · intro p hp
      rw [heq] at hp
      rcases List.mem_append.mp hp with hp | hp
      · exact h4 p hp
      · have hpv : p = ⟨r.player, 1, [], ⟨[]⟩, ⟨[]⟩⟩ := by simpa using hp
        subst hpv
        rfl
  · have hnames : namesOf (bumpTotal ps r.player) = namesOf ps := by
      rw [heq, hsplit, namesOf_append, namesOf_append]
      rfl
    have hqmem : q ∈ ps := by
      rw [hsplit]
      exact List.mem_append.mpr (Or.inr (by simp))
    have hnamesSplit : namesOf ps = namesOf l1 ++ q.name :: namesOf l2 := by
      rw [hsplit, namesOf_append]
      rfl
    have hqnotl2 : q.name ∉ namesOf l2 := by
      have h3s := h3
      rw [hnamesSplit, List.nodup_append] at h3s
      have := h3s.2.1
      rw [List.nodup_cons] at this
      exact this.1
    refine ⟨?_, ?_, ?_, ?_⟩
    · intro p hp
      rw [heq] at hp
      rcases List.mem_append.mp hp with hp | hp
      · have hne : (r.player == p.name) = false := by
          have : p.name ≠ r.player := fun hcon => hl1 p hp (by rw [hcon])
          simpa using (Ne.symm this)
        rw [List.countP_append, List.countP_cons]
        simp [hne]
        exact h1 p (by rw [hsplit]; exact List.mem_append.mpr (Or.inl hp))
      · rcases List.mem_cons.mp hp with hp | hp
        · subst hp
          rw [List.countP_append, List.countP_cons]
          have htrue : (r.player == q.name) = true := by simp [hqn]
          have hq1 := h1 q hqmem
          simp [htrue, hq1]
        · have hne : (r.player == p.name) = false := by
            have hpn : p.name ∈ namesOf l2 := List.mem_map.mpr ⟨p, hp, rfl⟩
            have : q.name ≠ p.name := fun hcon => hqnotl2 (hcon ▸ hpn)
            rw [← hqn]
            simpa using this
          rw [List.countP_append, List.countP_cons]
          simp [hne]
          exact h1 p (by
            rw [hsplit]
            exact List.mem_append.mpr (Or.inr (List.mem_cons.mpr (Or.inr hp))))
    · intro d hd
      rw [hnames]
      rcases List.mem_append.mp hd with hd | hd
      · exact h2 d hd
      · have : d = r := by simpa using hd
        subst this
        rw [hnamesSplit, ← hqn]
        exact List.mem_append.mpr (Or.inr (by simp [hqn]))
    · rw [hnames]
      exact h3
    · intro p hp
      rw [heq] at hp
      rcases List.mem_append.mp hp with hp | hp
      · exact h4 p (by rw [hsplit]; exact List.mem_append.mpr (Or.inl hp))
      · rcases List.mem_cons.mp hp with hp | hp
        · subst hp
          exact h4 q hqmem
        · exact h4 p (by
            rw [hsplit]
            exact List.mem_append.mpr (Or.inr (List.mem_cons.mpr (Or.inr hp))))

theorem tallyGo_invariant (rs : List DeathRecord) (ps : List Player)
    (seen : List DeathRecord)
    (h1 : ∀ p ∈ ps, p.total_deaths = seen.countP (fun d => d.player == p.name))
    (h2 : ∀ d ∈ seen, d.player ∈ namesOf ps)
    (h3 : (namesOf ps).Nodup)
    (h4 : ∀ p ∈ ps, p.deaths_over_time = (⟨[]⟩ : Chart)) :
    (∀ p ∈ rs.foldl (fun ps d => bumpTotal ps d.player) ps,
      p.total_deaths = (seen ++ rs).countP (fun d => d.player == p.name)) ∧
    (namesOf (rs.foldl (fun ps d => bumpTotal ps d.player) ps)).Nodup ∧
    (∀ p ∈ rs.foldl (fun ps d => bumpTotal ps d.player) ps,
      p.deaths_over_time = (⟨[]⟩ : Chart)) := by
  induction rs generalizing ps seen with
  | nil =>
    simp only [List.foldl_nil, List.append_nil]
    exact ⟨h1, h3, h4⟩
  | cons r rest ih =>
    have step := bumpTotal_invariant ps seen r h1 h2 h3 h4
    have hres := ih (bumpTotal ps r.player) (seen ++ [r]) step.1 step.2.1 step.2.2.1
      step.2.2.2
    simpa [List.append_assoc] using hres

theorem buildPlayers_spec (l : List DeathRecord) :
    (∀ p ∈ buildPlayers l,
      p.total_deaths = l.countP (fun d => d.player == p.name) ∧
      p.deaths_over_time = (⟨[]⟩ : Chart)) ∧
    (namesOf (buildPlayers l)).Nodup := by
  have h := tallyGo_invariant l.reverse [] [] (by simp) (by simp)
    (by simp [namesOf]) (by simp)
  refine ⟨?_, ?_⟩
  · intro p hp
    refine ⟨?_, h.2.2 p hp⟩
    have := h.1 p hp
    rw [List.nil_append] at this
    rw [this]
    exact List.Perm.countP_eq _ (List.reverse_perm l)
  · exact h.2.1

/- ## Shape of the aggregator's output -/

theorem deathsAgg_cases (records : List DeathRecord) (sel : Option Int)
    (t : DeathsTemplate) (ht : deathsAgg records sel = some t) :
    (records = [] ∧ t = emptyTemplate) ∨
    ∃ first lastRec, (yearFiltered records sel).head? = some first ∧
      (yearFiltered records sel).getLast? = some lastRec ∧
      t = ⟨buildYears records sel,
        (buildYears records sel).all (fun y => !y.enabled),
        (yearFiltered records sel).length,
        finalPlayers (yearFiltered records sel)
          first.timestamp.date lastRec.timestamp.date,
        deathPieChart ((yearFiltered records sel).map (fun d => d.cause)),
        (chartLoop (yearFiltered records sel)
          first.timestamp.date lastRec.timestamp.date).2⟩ := by
  by_cases hre : records.isEmpty = true
  · left
    unfold deathsAgg at ht
    rw [if_pos hre] at ht
    refine ⟨List.isEmpty_iff.mp hre, ?_⟩
    exact (Option.some.injEq _ _ ▸ ht).symm
  · right
    unfold deathsAgg at ht
    rw [if_neg hre] at ht
    cases hh : (yearFiltered records sel).head? with
    | none =>
      rw [hh] at ht
      cases hl : (yearFiltered records sel).getLast? with
      | none => rw [hl] at ht; exact absurd ht (by simp)
      | some lastRec => rw [hl] at ht; exact absurd ht (by simp)
    | some first =>
      rw [hh] at ht
      cases hl : (yearFiltered records sel).getLast? with
      | none => rw [hl] at ht; exact absurd ht (by simp)
      | some lastRec =>
        rw [hl] at ht
        exact ⟨first, lastRec, rfl, rfl, by simpa using ht.symm⟩

/-- C7: assuming the chronological input the pipeline hands the aggregator,
every account's deaths-over-time values sum to that account's total deaths,
which equals the number of filtered events attributed to that account. -/
theorem sum_over_time_eq_total (records : List DeathRecord) (sel : Option Int)
    (t : DeathsTemplate)
    (hsort : (yearFiltered records sel).Pairwise
      (fun a b => a.timestamp.date ≤ b.timestamp.date))
    (ht : deathsAgg records sel = some t) :
    ∀ p ∈ t.players,
      p.deaths_over_time.values.sum = p.total_deaths ∧
      p.total_deaths =
        (yearFiltered records sel).countP (fun d => d.player == p.name) := by
  rcases deathsAgg_cases records sel t ht with ⟨hrec, hte⟩ | ⟨first, lastRec, hh, hl, hte⟩
  · subst hte
    intro p hp
    simp [emptyTemplate] at hp
  · subst hte
    intro p hp
    have hp2 : p ∈ finalPlayers (yearFiltered records sel)
        first.timestamp.date lastRec.timestamp.date := hp
    unfold finalPlayers at hp2
    unfold chartLoop at hp2
    rw [foldl_dayStep_fst] at hp2
    rw [List.map_map, List.map_map] at hp2
    rcases List.mem_map.mp hp2 with ⟨p0, hp0, hpeq⟩
    have hspec := (buildPlayers_spec (yearFiltered records sel)).1 p0 hp0
    have hpchart : p.deaths_over_time =
        (playerAfter (buildDotMap (yearFiltered records sel))
          (dateRange first.timestamp.date lastRec.timestamp.date) p0).deaths_over_time := by
      rw [← hpeq]
      rfl
    have hptotal : p.total_deaths = p0.total_deaths := by
      rw [← hpeq]
      show (playerAfter _ _ p0).total_deaths = p0.total_deaths
      exact playerAfter_total _ _ p0
    have hpname : p.name = p0.name := by
      rw [← hpeq]
      show (playerAfter _ _ p0).name = p0.name
      exact playerAfter_name _ _ p0
    have hall : ∀ r ∈ yearFiltered records sel,
        r.timestamp.date ∈ dateRange first.timestamp.date lastRec.timestamp.date := by
      intro r hr
      rw [mem_dateRange]
      exact ⟨head_date_le _ hsort first hh r hr, date_le_getLast _ hsort lastRec hl r hr⟩
    have hsum : p.deaths_over_time.values.sum =
        (yearFiltered records sel).countP (fun r => p0.name == r.player) := by
      have h1 : p.deaths_over_time.values.sum =
          sumValues (playerAfter (buildDotMap (yearFiltered records sel))
            (dateRange first.timestamp.date lastRec.timestamp.date) p0).deaths_over_time := by
        rw [hpchart]
        rfl
      rw [h1, sum_playerAfter, hspec.2]
      have hz : sumValues (⟨[]⟩ : Chart) = 0 := rfl
      rw [hz]
      have hcong : ((dateRange first.timestamp.date lastRec.timestamp.date).map
          (fun d => (dpsOf (buildDotMap (yearFiltered records sel)) d).countP
            (fun dp => p0.name == dp))).sum =
          ((dateRange first.timestamp.date lastRec.timestamp.date).map
            (fun d => (yearFiltered records sel).countP
              (fun r => (r.timestamp.date == d) && (p0.name == r.player)))).sum := by
        congr 1
        apply List.map_congr_left
        intro d _
        exact countP_dps (yearFiltered records sel) d p0.name
      rw [hcong, countP_sum_over_range (yearFiltered records sel) _ _
        (nodup_dateRange _ _) hall]
      omega
    have hflip : (yearFiltered records sel).countP (fun r => p0.name == r.player) =
        (yearFiltered records sel).countP (fun d => d.player == p0.name) := by
      apply List.countP_congr
      intro r _
      constructor
      · intro hx
        simp at hx ⊢
        exact hx.symm
      · intro hx
        simp at hx ⊢
        exact hx.symm
    refine ⟨?_, ?_⟩
    · rw [hsum, hflip, ← hspec.1, hptotal]
    · rw [hptotal, hspec.1, hpname]

/-- Input for the C7 witness: one account dying on two consecutive days. -/
def c7Records : List DeathRecord :=
  [⟨⟨0, 2024⟩, "A", "x"⟩, ⟨⟨1, 2024⟩, "A", "x"⟩]

/-- The aggregate the witness input produces. -/
def c7Template : DeathsTemplate :=
  ⟨[⟨2024, false⟩], true, 2,
    [⟨"A", 2, ["x"], ⟨[("x", 2)]⟩, ⟨[(dateLabel 0, 1), (dateLabel 1, 1)]⟩⟩],
    ⟨[("x", 2)]⟩, ⟨[(dateLabel 0, 1), (dateLabel 1, 1)]⟩⟩

/-- C7 witness: the theorem applied at a concrete chronological input. -/
theorem sum_over_time_eq_total_witness :
    (⟨"A", 2, ["x"], ⟨[("x", 2)]⟩,
        ⟨[(dateLabel 0, 1), (dateLabel 1, 1)]⟩⟩ : Player).deaths_over_time.values.sum =
      (⟨"A", 2, ["x"], ⟨[("x", 2)]⟩,
        ⟨[(dateLabel 0, 1), (dateLabel 1, 1)]⟩⟩ : Player).total_deaths ∧
    (⟨"A", 2, ["x"], ⟨[("x", 2)]⟩,
        ⟨[(dateLabel 0, 1), (dateLabel 1, 1)]⟩⟩ : Player).total_deaths =
      (yearFiltered c7Records none).countP (fun d => d.player ==
        (⟨"A", 2, ["x"], ⟨[("x", 2)]⟩,
          ⟨[(dateLabel 0, 1), (dateLabel 1, 1)]⟩⟩ : Player).name) :=
  sum_over_time_eq_total c7Records none c7Template (by decide) (by decide)
    ⟨"A", 2, ["x"], ⟨[("x", 2)]⟩, ⟨[(dateLabel 0, 1), (dateLabel 1, 1)]⟩⟩ (by decide)

/- ## Characterizing unique and exclusive causes -/

theorem mem_insertByCountDesc (e x : String × Nat) (l : List (String × Nat)) :
    x ∈ insertByCountDesc e l ↔ x = e ∨ x ∈ l := by
  induction l with
  | nil => simp [insertByCountDesc]
  | cons f fs ih =>
    unfold insertByCountDesc
    split
    · simp [ih]
      tauto
    · simp

theorem mem_sortByCountDesc (x : String × Nat) (l : List (String × Nat)) :
    x ∈ sortByCountDesc l ↔ x ∈ l := by
  induction l with
  | nil => simp [sortByCountDesc]
  | cons f fs ih =>
    show x ∈ insertByCountDesc f (sortByCountDesc fs) ↔ _
    rw [mem_insertByCountDesc]
    simp [ih]

theorem tallyCause_fst_mem (m : List (String × Nat)) (c0 x : String) :
    x ∈ (tallyCause m c0).map (fun e => e.1) ↔
      x ∈ m.map (fun e => e.1) ∨ x = c0 := by
  induction m with
  | nil => simp [tallyCause]
  | cons e es ih =>
    by_cases he : (e.1 == c0) = true
    · have heq : e.1 = c0 := by simpa using he
      unfold tallyCause
      rw [if_pos he]
      simp [heq]
      tauto
    · have he' : (e.1 == c0) = false := by
        cases hh : e.1 == c0
        · rfl
        · exact absurd hh he
      unfold tallyCause
      rw [if_neg (by simp [he'])]
      simp [ih]
      tauto

theorem foldl_tally_fst_mem (cs : List String) (m : List (String × Nat))
    (x : String) :
    x ∈ ((cs.foldl tallyCause m).map (fun e => e.1)) ↔
      x ∈ m.map (fun e => e.1) ∨ x ∈ cs := by
  induction cs generalizing m with
  | nil => simp
  | cons c rest ih =>
    show x ∈ ((rest.foldl tallyCause (tallyCause m c)).map (fun e => e.1)) ↔ _
    rw [ih, tallyCause_fst_mem]
    simp
    tauto

theorem pie_labels_mem (cs : List String) (c : String) :
    c ∈ (deathPieChart cs).labels ↔ c ∈ cs := by
  unfold deathPieChart Chart.labels
  simp only
  constructor
  · intro h
    rcases List.mem_map.mp h with ⟨e, he, hfst⟩
    have he2 : e ∈ cs.foldl tallyCause [] := (mem_sortByCountDesc e _).mp he
    have : c ∈ ((cs.foldl tallyCause []).map (fun e => e.1)) :=
      List.mem_map.mpr ⟨e, he2, hfst⟩
    rcases (foldl_tally_fst_mem cs [] c).mp this with h2 | h2
    · simp at h2
    · exact h2
  · intro h
    have : c ∈ ((cs.foldl tallyCause []).map (fun e => e.1)) :=
      (foldl_tally_fst_mem cs [] c).mpr (Or.inr h)
    rcases List.mem_map.mp this with ⟨e, he, hfst⟩
    exact List.mem_map.mpr ⟨e, (mem_sortByCountDesc e _).mpr he, hfst⟩

theorem setUnique_name (f : List DeathRecord) (q : Player) :
    (setUnique f q).name = q.name := rfl

theorem setExclusive_name (f : List DeathRecord) (q : Player) :
    (setExclusive f q).name = q.name := rfl

theorem setExclusive_exclusive (f : List DeathRecord) (q : Player) :
    (setExclusive f q).exclusive_deaths =
      q.unique_deaths.labels.filter
        (fun pd => (f.filter (fun d => d.cause == pd)).all
          (fun d => d.player == q.name)) := rfl

theorem exclusive_mem_char (f : List DeathRecord)
    (dot : List (Nat × Nat × List String)) (range : List Nat) (p0 : Player)
    (c : String) :
    c ∈ (setExclusive f (setUnique f (playerAfter dot range p0))).exclusive_deaths ↔
      (∃ e ∈ f, e.player = p0.name ∧ e.cause = c) ∧
      (∀ e ∈ f, e.cause = c → e.player = p0.name) := by
  rw [setExclusive_exclusive, List.mem_filter]
  have hname : (setUnique f (playerAfter dot range p0)).name = p0.name := by
    rw [setUnique_name, playerAfter_name]
  have hunique : (setUnique f (playerAfter dot range p0)).unique_deaths =
      deathPieChart ((f.filter (fun d => d.player == p0.name)).map (fun d => d.cause)) := by
    show deathPieChart ((f.filter
      (fun d => d.player == (playerAfter dot range p0).name)).map (fun d => d.cause)) = _
    rw [playerAfter_name]
  rw [hunique, hname]
  constructor
  · rintro ⟨hmem, hall⟩
    constructor
    · have := (pie_labels_mem _ c).mp hmem
      rcases List.mem_map.mp this with ⟨e, he, hcause⟩
      rw [List.mem_filter] at he
      exact ⟨e, he.1, by simpa using he.2, hcause⟩
    · intro e he hc
      have := List.all_eq_true.mp hall e
        (List.mem_filter.mpr ⟨he, by simp [hc]⟩)
      simpa using this
  · rintro ⟨⟨e, he, hep, hec⟩, hall⟩
    constructor
    · apply (pie_labels_mem _ c).mpr
      exact List.mem_map.mpr ⟨e, List.mem_filter.mpr ⟨he, by simp [hep]⟩, hec⟩
    · apply List.all_eq_true.mpr
      intro d hd
      rw [List.mem_filter] at hd
      have : d.cause = c := by simpa using hd.2
      simpa using hall d hd.1 this

theorem namesOf_map_preserved (g : Player → Player)
    (hg : ∀ p, (g p).name = p.name) (ps : List Player) :
    namesOf (ps.map g) = namesOf ps := by
  unfold namesOf
  rw [List.map_map]
  apply List.map_congr_left
  intro p _
  exact hg p

theorem namesOf_finalPlayers (f : List DeathRecord) (lo hi : Nat) :
    namesOf (finalPlayers f lo hi) = namesOf (buildPlayers f) := by
  unfold finalPlayers chartLoop
  rw [foldl_dayStep_fst]
  rw [namesOf_map_preserved (setExclusive f) (setExclusive_name f)]
  rw [namesOf_map_preserved (setUnique f) (setUnique_name f)]
  exact namesOf_map_preserved _ (playerAfter_name _ _) (buildPlayers f)

theorem eq_of_names_nodup (ps : List Player) (hnd : (namesOf ps).Nodup)
    (p q : Player) (hp : p ∈ ps) (hq : q ∈ ps) (hname : p.name = q.name) :
    p = q := by
  induction ps with
  | nil => simp at hp
  | cons a rest ih =>
    have hnd2 : (namesOf rest).Nodup ∧ a.name ∉ namesOf rest := by
      have : namesOf (a :: rest) = a.name :: namesOf rest := rfl
      rw [this, List.nodup_cons] at hnd
      exact ⟨hnd.2, hnd.1⟩
    rcases List.mem_cons.mp hp with hp | hp
    · rcases List.mem_cons.mp hq with hq | hq
      · rw [hp, hq]
      · exfalso
        apply hnd2.2
        rw [hp] at hname
        exact hname ▸ List.mem_map.mpr ⟨q, hq, rfl⟩
    · rcases List.mem_cons.mp hq with hq | hq
      · exfalso
        apply hnd2.2
        rw [hq] at hname
        exact hname ▸ List.mem_map.mpr ⟨p, hp, rfl⟩
      · exact ih hnd2.1 hp hq

/-- C8: for every account in the output and every cause string, the cause is
in that account's exclusive deaths exactly when the account has at least one
filtered event with that cause and every filtered event with that exact
cause belongs to that account; consequently a cause is in at most one
account's exclusive deaths. -/
theorem exclusive_deaths_iff (records : List DeathRecord) (sel : Option Int)
    (t : DeathsTemplate) (ht : deathsAgg records sel = some t) :
    ∀ p ∈ t.players, ∀ c : String,
      (c ∈ p.exclusive_deaths ↔
        (∃ e ∈ yearFiltered records sel, e.player = p.name ∧ e.cause = c) ∧
        (∀ e ∈ yearFiltered records sel, e.cause = c → e.player = p.name)) ∧
      (c ∈ p.exclusive_deaths → ∀ q ∈ t.players, c ∈ q.exclusive_deaths → q = p) := by
  rcases deathsAgg_cases records sel t ht with ⟨hrec, hte⟩ | ⟨first, lastRec, hh, hl, hte⟩
  · subst hte
    intro p hp
    simp [emptyTemplate] at hp
  · subst hte
    have hchar : ∀ p ∈ finalPlayers (yearFiltered records sel)
        first.timestamp.date lastRec.timestamp.date, ∀ c : String,
        c ∈ p.exclusive_deaths ↔
          (∃ e ∈ yearFiltered records sel, e.player = p.name ∧ e.cause = c) ∧
          (∀ e ∈ yearFiltered records sel, e.cause = c → e.player = p.name) := by
      intro p hp c
      have hp2 : p ∈ finalPlayers (yearFiltered records sel)
          first.timestamp.date lastRec.timestamp.date := hp
      unfold finalPlayers at hp2
      unfold chartLoop at hp2
      rw [foldl_dayStep_fst, List.map_map, List.map_map] at hp2
      rcases List.mem_map.mp hp2 with ⟨p0, _, hpeq⟩
      have hpname : p.name = p0.name := by
        rw [← hpeq]
        show (playerAfter _ _ p0).name = p0.name
        exact playerAfter_name _ _ p0
      rw [hpname]
      rw [← hpeq]
      exact exclusive_mem_char (yearFiltered records sel) _ _ p0 c
    intro p hp c
    have hp2 : p ∈ finalPlayers (yearFiltered records sel)
        first.timestamp.date lastRec.timestamp.date := hp
    refine ⟨hchar p hp2 c, ?_⟩
    intro hcp q hq hcq
    have hq2 : q ∈ finalPlayers (yearFiltered records sel)
        first.timestamp.date lastRec.timestamp.date := hq
    have hiffp := (hchar p hp2 c).mp hcp
    have hiffq := (hchar q hq2 c).mp hcq
    rcases hiffp.1 with ⟨e, he, hep, hec⟩
    have heq : e.player = q.name := hiffq.2 e he hec
    have hname : q.name = p.name := by rw [← heq, hep]
    have hnd : (namesOf (finalPlayers (yearFiltered records sel)
        first.timestamp.date lastRec.timestamp.date)).Nodup := by
      rw [namesOf_finalPlayers]
      exact (buildPlayers_spec (yearFiltered records sel)).2
    exact eq_of_names_nodup _ hnd q p hq2 hp2 hname

/-- Input for the C8 witness: two accounts with distinct causes on one day. -/
def c8Records : List DeathRecord :=
  [⟨⟨0, 2024⟩, "A", "x"⟩, ⟨⟨0, 2024⟩, "B", "y"⟩]

/-- The aggregate the C8 witness input produces. -/
def c8Template : DeathsTemplate :=
  ⟨[⟨2024, false⟩], true, 2,
    [⟨"B", 1, ["y"], ⟨[("y", 1)]⟩, ⟨[(dateLabel 0, 1)]⟩⟩,
     ⟨"A", 1, ["x"], ⟨[("x", 1)]⟩, ⟨[(dateLabel 0, 1)]⟩⟩],
    ⟨[("y", 1), ("x", 1)]⟩, ⟨[(dateLabel 0, 2)]⟩⟩

/-- C8 witness: the theorem applied at a concrete input and cause. -/
theorem exclusive_deaths_iff_witness :
    ("y" ∈ (⟨"B", 1, ["y"], ⟨[("y", 1)]⟩, ⟨[(dateLabel 0, 1)]⟩⟩ : Player).exclusive_deaths ↔
      (∃ e ∈ yearFiltered c8Records none,
        e.player = (⟨"B", 1, ["y"], ⟨[("y", 1)]⟩, ⟨[(dateLabel 0, 1)]⟩⟩ : Player).name ∧
          e.cause = "y") ∧
      (∀ e ∈ yearFiltered c8Records none, e.cause = "y" →
        e.player = (⟨"B", 1, ["y"], ⟨[("y", 1)]⟩, ⟨[(dateLabel 0, 1)]⟩⟩ : Player).name)) ∧
    ("y" ∈ (⟨"B", 1, ["y"], ⟨[("y", 1)]⟩, ⟨[(dateLabel 0, 1)]⟩⟩ : Player).exclusive_deaths →
      ∀ q ∈ c8Template.players, "y" ∈ q.exclusive_deaths →
        q = ⟨"B", 1, ["y"], ⟨[("y", 1)]⟩, ⟨[(dateLabel 0, 1)]⟩⟩) :=
  exclusive_deaths_iff c8Records none c8Template (by decide)
    ⟨"B", 1, ["y"], ⟨[("y", 1)]⟩, ⟨[(dateLabel 0, 1)]⟩⟩ (by decide) "y"
